import Mathlib

/-!
Shallow embedding of `kmail2maildir.py` (Boris-de/kmail2maildir).

Python strings are modelled as `List Char` (`Str`); Python's string
operations (slicing, `split`, `join`, `startswith`, `endswith`,
lexicographic `<`) are modelled by the list functions below, which agree
with Python's character-level semantics.

The filesystem is modelled as a flat collection of directory paths and
file paths (`FS`).  Directory-content enumeration order (which Python's
`glob`/`os.listdir` leave to the OS) is modelled as the order of the
entry lists.  Printing to stdout is not modelled; the `quiet` flag is
carried but has no observable effect in the model, exactly as in the
source where it only suppresses messages.
-/

/-- Models a Python `str` as its list of characters. -/
abbrev Str := List Char

/-- Shorthand turning a Lean string literal into the `List Char` model. -/
def str (s : String) : Str := s.data

/-- Source constant `HIDDEN_FILE_PREFIX = '.'` (renamed here). -/
def HIDDEN_FILE_MARKER : Str := str "."

/-- Source constant `KMAIL_SUBDIR_PREFIX = '.'` (renamed here). -/
def KMAIL_SUBDIR_HEAD : Str := str "."

/-- Source constant `KMAIL_SUBDIR_SUFFIX = '.directory'` (renamed here). -/
def KMAIL_SUBDIR_TAIL : Str := str ".directory"

/-- Source constant `MAILDIR_SPECIAL_DIRS = ('cur', 'new', 'tmp')`. -/
def MAILDIR_SPECIAL_DIRS : List Str := [str "cur", str "new", str "tmp"]

/-- Models `os.path.join a b` for the shapes used by the program: `a` not
ending in a path separator and `b` relative.  When `a` is empty Python
returns `b`. -/
def joinP (a b : Str) : Str := if a = [] then b else a ++ '/' :: b

/-- Models Python `s.split('/')` (`str.split` with an explicit separator):
`"".split('/') == [""]`, and every `'/'` starts a new (possibly empty)
component. -/
def splitOnSlash : Str → List Str
  | [] => [[]]
  | c :: rest =>
    if c = '/' then [] :: splitOnSlash rest
    else
      match splitOnSlash rest with
      | [] => [[c]]
      | h :: t => (c :: h) :: t

/-- Models Python `sep.join(xs)`. -/
def joinSep (sep : Str) : List Str → Str
  | [] => []
  | [x] => x
  | x :: xs => x ++ sep ++ joinSep sep xs

/-- Models `os.path.basename` for the paths handled here (no trailing
separator). -/
def basenameP (p : Str) : Str := (splitOnSlash p).getLastD []

/-- Models `os.path.dirname` for the call sites in the program (paths with
at least two components when the result is used). -/
def dirnameP (p : Str) : Str := joinSep (str "/") (splitOnSlash p).dropLast

/-- Models `os.path.relpath directory folder` at its single call site,
where `directory` is always of the form `joinP folder rest`. -/
def relpathUnder (directory folder : Str) : Str :=
  if folder = [] then directory else directory.drop (folder.length + 1)

/-- Models Python's lexicographic `<` on strings (code-point order). -/
def strLt : Str → Str → Bool
  | [], [] => false
  | [], _ :: _ => true
  | _ :: _, [] => false
  | a :: as, b :: bs => if a < b then true else if b < a then false else strLt as bs

/-- Models the filesystem: the set of directory paths and file paths,
each kept in enumeration order. -/
structure FS where
  dirs : List Str
  files : List Str
deriving DecidableEq, Repr

/-- Extracts the entry name of `e` when `e` is an immediate child path of
directory `d` (i.e. `e = joinP d n` for a slash-free nonempty `n`). -/
def childName (d e : Str) : Option Str :=
  let rest := if d = [] then e else e.drop (d.length + 1)
  if e = joinP d rest ∧ rest ≠ [] ∧ '/' ∉ rest then some rest else none

/-- Models `os.listdir d`: the names of the immediate children of `d`.
Python raises on a missing directory; the call site (`__is_empty_dir`)
only ever receives directories that exist, and the model returns `[]`
for a missing one. -/
def listdirNames (fs : FS) (d : Str) : List Str :=
  (fs.dirs ++ fs.files).filterMap (childName d)

/-- Models `glob.glob(os.path.join d pat)` for a single-component
name pattern `pat`, given as a predicate `p` on the child name: the full
paths of the children of `d` whose name matches, in enumeration order. -/
def glob (fs : FS) (d : Str) (p : Str → Bool) : List Str :=
  (fs.dirs ++ fs.files).filter fun e =>
    match childName d e with
    | some n => p n
    | none => false

/-- Models the glob name pattern `'.*.directory'` (i.e.
`KMAIL_SUBDIR_PREFIX + '*' + KMAIL_SUBDIR_SUFFIX`): any name of the form
`'.' ++ mid ++ '.directory'`.  The leading dot is literal, so hidden
names are matched. -/
def patContainer (n : Str) : Bool :=
  KMAIL_SUBDIR_HEAD.isPrefixOf n && KMAIL_SUBDIR_TAIL.isSuffixOf n &&
    decide (KMAIL_SUBDIR_HEAD.length + KMAIL_SUBDIR_TAIL.length ≤ n.length)

/-- Models the glob name pattern `'*'`: glob does not match hidden names
with a leading `*`. -/
def patStar (n : Str) : Bool := !(HIDDEN_FILE_MARKER.isPrefixOf n)

/-- Models the glob name pattern `HIDDEN_FILE_PREFIX + name + '.index*'`
used by `remove_index_files`. -/
def patIndex (name : Str) (n : Str) : Bool :=
  (HIDDEN_FILE_MARKER ++ name ++ str ".index").isPrefixOf n

/-- Models `os.path.exists`. -/
def pathExists (fs : FS) (p : Str) : Prop := p ∈ fs.dirs ∨ p ∈ fs.files

instance (fs : FS) (p : Str) : Decidable (pathExists fs p) := by
  unfold pathExists; infer_instance

/-- Models `Kmail2Maildir.__is_maildir`: all three of `cur`, `new`, `tmp`
are subdirectories of `directory`. -/
def is_maildir (fs : FS) (directory : Str) : Bool :=
  MAILDIR_SPECIAL_DIRS.all fun d => decide (joinP directory d ∈ fs.dirs)

/-- Models `Kmail2Maildir.__is_empty_dir`: `not os.listdir(directory)`. -/
def is_empty_dir (fs : FS) (directory : Str) : Bool :=
  listdirNames fs directory = []

/-- Models the configuration handed to the core by the CLI
(`args.folder`, `args.hierarchy_separator`, `args.remove_index_files`,
`args.dry_run`). -/
structure Args where
  folder : Str
  hierarchy_separator : Str
  remove_index_files : Bool
  dry_run : Bool
deriving DecidableEq, Repr

/-- Models the per-component stripping in `Maildir.__init__`:
`p[len(KMAIL_SUBDIR_PREFIX):len(p) - len(KMAIL_SUBDIR_SUFFIX)]` when `p`
starts with the prefix and ends with the suffix, else `p` unchanged.
Python's slice `p[a:b]` is `(p.take b).drop a` (empty when `b < a`). -/
def stripSegment (p : Str) : Str :=
  if KMAIL_SUBDIR_HEAD.isPrefixOf p ∧ KMAIL_SUBDIR_TAIL.isSuffixOf p then
    (p.take (p.length - KMAIL_SUBDIR_TAIL.length)).drop KMAIL_SUBDIR_HEAD.length
  else p

/-- Models the `Maildir` class: one discovered maildir folder. -/
structure Maildir where
  args : Args
  name : Str
  directory : Str
  path_list : List Str
deriving DecidableEq, Repr

/-- Models `Maildir.__init__(options, directory)`. -/
def Maildir.make (options : Args) (directory : Str) : Maildir :=
  let path_components := splitOnSlash (relpathUnder directory options.folder)
  { args := options
    name := basenameP directory
    directory := directory
    path_list := path_components.map stripSegment }

/-- Models `Maildir.get_folder_path`. -/
def Maildir.get_folder_path (m : Maildir) : Str :=
  joinP m.args.folder
    (HIDDEN_FILE_MARKER ++ joinSep m.args.hierarchy_separator m.path_list)

/-- Models `Maildir.get_parent_maildir`. -/
def Maildir.get_parent_maildir (m : Maildir) : Option Str :=
  if m.path_list.length = 1 then none else some (dirnameP m.directory)

/-- Models the mutating operations routed through `FileSystemAction`. -/
inductive Op where
  | renameOp (src dst : Str)
  | deleteOp (file : Str)
  | rmdirOp (directory : Str)
deriving DecidableEq, Repr

/-- Models the exceptions that abort a run: the explicit
`Exception("Destination ... already exists")` raised by
`FileSystemAction.rename`, and errors raised by the underlying
`os.rename` / `os.remove` / `os.rmdir` calls. -/
inductive FsError where
  | destExists (dst : Str)
  | osError (op : Op)
deriving DecidableEq, Repr

/-- Rewrites path `p` when the subtree rooted at `src` is renamed to
`dst`. -/
def replaceRoot (src dst p : Str) : Str :=
  if p = src then dst
  else if (src ++ ['/']).isPrefixOf p then dst ++ p.drop src.length else p

/-- Models `os.rename src dst`: fails if `src` is missing or `dst`
present; otherwise moves the whole subtree rooted at `src`. -/
def osRename (fs : FS) (src dst : Str) : Option FS :=
  if pathExists fs src ∧ ¬ pathExists fs dst then
    some { dirs := fs.dirs.map (replaceRoot src dst)
           files := fs.files.map (replaceRoot src dst) }
  else none

/-- Models `os.remove f`: fails unless `f` is an existing file. -/
def osRemove (fs : FS) (f : Str) : Option FS :=
  if f ∈ fs.files then some { fs with files := fs.files.erase f } else none

/-- Models `os.rmdir d`: fails unless `d` is an existing empty
directory. -/
def osRmdir (fs : FS) (d : Str) : Option FS :=
  if d ∈ fs.dirs ∧ listdirNames fs d = [] then
    some { fs with dirs := fs.dirs.erase d }
  else none

/-- Executes one mutating operation against the filesystem. -/
def applyOp (fs : FS) : Op → Option FS
  | .renameOp src dst => osRename fs src dst
  | .deleteOp f => osRemove fs f
  | .rmdirOp d => osRmdir fs d

/-- Models the `FileSystemAction` helper class. -/
structure FileSystemAction where
  dry_run : Bool
  quiet : Bool
deriving DecidableEq, Repr

/-- Engine state: the filesystem plus the list of operations the gateway
has executed (real mode) or would execute (dry mode), in order. -/
structure EngSt where
  fs : FS
  trace : List Op
deriving DecidableEq, Repr

/-- Result of a run fragment: the state reached, and the error that
aborted it, if any. -/
abbrev EResult := EngSt × Option FsError

/-- Models `FileSystemAction.__run`: describe the operation (printing is
not modelled), and execute it only when not a dry run. -/
def FileSystemAction.runOp (a : FileSystemAction) (op : Op) (st : EngSt) : EResult :=
  if a.dry_run then ({ st with trace := st.trace ++ [op] }, none)
  else
    match applyOp st.fs op with
    | some fs' => ({ fs := fs', trace := st.trace ++ [op] }, none)
    | none => (st, some (.osError op))

/-- Models `FileSystemAction.rename`: always raises first when the
destination already exists, even in dry runs. -/
def FileSystemAction.rename (a : FileSystemAction) (src dst : Str) (st : EngSt) : EResult :=
  if pathExists st.fs dst then (st, some (.destExists dst))
  else a.runOp (.renameOp src dst) st

/-- Models `FileSystemAction.delete`. -/
def FileSystemAction.delete (a : FileSystemAction) (f : Str) (st : EngSt) : EResult :=
  a.runOp (.deleteOp f) st

/-- Models `FileSystemAction.rmdir`. -/
def FileSystemAction.rmdir (a : FileSystemAction) (d : Str) (st : EngSt) : EResult :=
  a.runOp (.rmdirOp d) st

/-- Models `Kmail2Maildir.__get_subfolders_containers_recursive`.  The
Python recursion is bounded only by the filesystem tree; here an
explicit `fuel` makes it structural.  Each recursion level descends into
a strictly longer directory path that is itself an `fs.dirs` entry, so
any `fuel ≥ fs.dirs.length + 1` (as passed by `move_kmail_folders`)
behaves exactly like the unbounded original. -/
def get_subfolders_containers_recursive (fs : FS) : Nat → Str → List Str
  | 0, directory => [directory]
  | fuel + 1, directory =>
    let directories := glob fs directory patContainer
    let containers := directories.filter fun d => decide (d ∈ fs.dirs)
    directory ::
      containers.flatMap (get_subfolders_containers_recursive fs fuel)

/-- Models `Kmail2Maildir.__get_maildirs_from_subfoldercontainers`.
Note the source's hidden-entry filter `d[0] != HIDDEN_FILE_PREFIX` tests
the first character of the full joined path `d`, not of the child name;
`d.take 1` models Python's `d[0]` (which never sees an empty `d` here). -/
def get_maildirs_from_subfoldercontainers (fs : FS) (subfolder_containers : List Str) :
    List Str :=
  subfolder_containers.flatMap fun subdir_container =>
    let files := glob fs subdir_container patStar
    let directories := files.filter fun f => decide (f ∈ fs.dirs)
    let potential_maildirs := directories.filter fun d => decide (d.take 1 ≠ HIDDEN_FILE_MARKER)
    potential_maildirs.filter fun d => is_maildir fs d

/-- Ordering used by `maildirs.sort(key=lambda d: d.get_folder_path(), reverse=True)`:
`m₁` may precede `m₂` when `m₁`'s flattened path is not lexicographically
smaller.  Python's sort is stable, and a stable sort's output is uniquely
determined by the comparisons, so the structurally recursive
`List.insertionSort` below reproduces it exactly. -/
def maildirBefore (m₁ m₂ : Maildir) : Prop :=
  strLt m₁.get_folder_path m₂.get_folder_path = false

instance : DecidableRel maildirBefore := by
  unfold maildirBefore; infer_instance

/-- Models the discovery-and-sort phase of `move_kmail_folders`: the
`Maildir` models of all discovered folders, sorted by flattened path in
descending lexicographic order (stably, as Python's `reverse=True`). -/
def sortedMaildirs (args : Args) (fs : FS) : List Maildir :=
  let subdir_containers :=
    get_subfolders_containers_recursive fs (fs.dirs.length + 1) args.folder
  let maildirs_paths := get_maildirs_from_subfoldercontainers fs subdir_containers
  let maildirs := maildirs_paths.map (Maildir.make args)
  List.insertionSort maildirBefore maildirs

/-- Deletes each listed file through the gateway, aborting on the first
error (no index file delete can actually fail in the program, but the
model keeps the propagation). -/
def deleteAll (fsa : FileSystemAction) : List Str → EngSt → EResult
  | [], st => (st, none)
  | f :: rest, st =>
    match fsa.delete f st with
    | (st', none) => deleteAll fsa rest st'
    | r => r

/-- Models `Kmail2Maildir.remove_index_files`: glob (on the live
filesystem) for `HIDDEN_FILE_PREFIX + maildir.name + '.index*'` next to
the original directory, and delete each match. -/
def remove_index_files (fsa : FileSystemAction) (maildir : Maildir) (st : EngSt) : EResult :=
  let index_files := glob st.fs (dirnameP maildir.directory) (patIndex maildir.name)
  deleteAll fsa index_files st

/-- Models one iteration of the `for maildir in maildirs` loop in
`move_kmail_folders`: rename, optionally purge index files, and remove
the parent container if it is now empty on the live filesystem. -/
def processOne (fsa : FileSystemAction) (args : Args) (maildir : Maildir) (st : EngSt) :
    EResult :=
  match fsa.rename maildir.directory maildir.get_folder_path st with
  | (st₁, none) =>
    let parent_maildir := maildir.get_parent_maildir
    let afterIdx : EResult :=
      if args.remove_index_files then remove_index_files fsa maildir st₁
      else (st₁, none)
    match afterIdx with
    | (st₂, none) =>
      match parent_maildir with
      | some p => if is_empty_dir st₂.fs p then fsa.rmdir p st₂ else (st₂, none)
      | none => (st₂, none)
    | r => r
  | r => r

/-- Runs the per-folder loop over the sorted maildir list, aborting on
the first error. -/
def processFolders (fsa : FileSystemAction) (args : Args) :
    List Maildir → EngSt → EResult
  | [], st => (st, none)
  | m :: rest, st =>
    match processOne fsa args m st with
    | (st', none) => processFolders fsa args rest st'
    | r => r

/-- Runs `fsa.rename (joinP src_base d) (joinP dst_base d)` for each `d`
in order, aborting on the first error; models the
`for maildir_dir in MAILDIR_SPECIAL_DIRS` loop. -/
def renameInto (fsa : FileSystemAction) (src_base dst_base : Str) :
    List Str → EngSt → EResult
  | [], st => (st, none)
  | d :: rest, st =>
    match fsa.rename (joinP src_base d) (joinP dst_base d) st with
    | (st', none) => renameInto fsa src_base dst_base rest st'
    | r => r

/-- Models the inbox special case at the end of `move_kmail_folders`:
rename `cur`, `new`, `tmp` (in that order) out of the hidden inbox
directory into the root, then remove the inbox directory. -/
def inboxRelocate (args : Args) (fsa : FileSystemAction) (st : EngSt) : EResult :=
  let kmail_inbox := joinP args.folder (HIDDEN_FILE_MARKER ++ str "inbox")
  match renameInto fsa kmail_inbox args.folder MAILDIR_SPECIAL_DIRS st with
  | (st₁, none) => fsa.rmdir kmail_inbox st₁
  | r => r

/-- Models `Kmail2Maildir.move_kmail_folders`. -/
def move_kmail_folders (args : Args) (fsa : FileSystemAction) (st : EngSt) : EResult :=
  match processFolders fsa args (sortedMaildirs args st.fs) st with
  | (st₁, none) => inboxRelocate args fsa st₁
  | r => r

/-- Models the top-level `kmail2maildir(args)` driver: unless the user
asked for a dry run, first execute a quiet dry validation pass, and
enter the real pass only if it completed without an exception. -/
def kmail2maildir (args : Args) (fs : FS) : EResult :=
  if args.dry_run then
    move_kmail_folders args { dry_run := true, quiet := false } { fs := fs, trace := [] }
  else
    match move_kmail_folders args { dry_run := true, quiet := true } { fs := fs, trace := [] } with
    | (_, none) =>
      move_kmail_folders args { dry_run := false, quiet := false } { fs := fs, trace := [] }
    | r => r

/-! Concrete trees used by the counterexamples and witnesses below. -/

/-- Tree with two distinct discovered folders that flatten to the same
destination `/mail/.A.B`: the maildir `B` inside container
`.A.directory`, and a root-level maildir literally named `A.B`. -/
def collideFs : FS :=
  { dirs := [str "/mail", str "/mail/.A.directory", str "/mail/.A.directory/B",
             str "/mail/.A.directory/B/cur", str "/mail/.A.directory/B/new",
             str "/mail/.A.directory/B/tmp",
             str "/mail/A.B", str "/mail/A.B/cur", str "/mail/A.B/new",
             str "/mail/A.B/tmp"]
    files := [] }

/-- Configuration for `collideFs`: default separator, real run requested. -/
def collideArgs : Args :=
  { folder := str "/mail", hierarchy_separator := str ".",
    remove_index_files := false, dry_run := false }

/-- Tree whose root folder name starts with the hidden-file marker and
which contains an admissible maildir child `B`. -/
def hiddenRootFs : FS :=
  { dirs := [str ".mail", str ".mail/B", str ".mail/B/cur", str ".mail/B/new",
             str ".mail/B/tmp"]
    files := [] }

/-- Container list discovered for `hiddenRootFs` from root `.mail`. -/
def hiddenRootContainers : List Str :=
  get_subfolders_containers_recursive hiddenRootFs (hiddenRootFs.dirs.length + 1)
    (str ".mail")

/-- Tree with one maildir `B` in container `.A.directory`, a KMail index
file `.B.index` beside it, and a KMail inbox. -/
def idxFs : FS :=
  { dirs := [str "/mail", str "/mail/.A.directory", str "/mail/.A.directory/B",
             str "/mail/.A.directory/B/cur", str "/mail/.A.directory/B/new",
             str "/mail/.A.directory/B/tmp",
             str "/mail/.inbox", str "/mail/.inbox/cur", str "/mail/.inbox/new",
             str "/mail/.inbox/tmp"]
    files := [str "/mail/.A.directory/.B.index"] }

/-- Configuration for `idxFs`: index-file removal requested. -/
def idxArgs : Args :=
  { folder := str "/mail", hierarchy_separator := str ".",
    remove_index_files := true, dry_run := false }

/-- Healthy demonstration tree: a root-level maildir `A`, its logical
subfolder `B` inside container `.A.directory`, and a KMail inbox. -/
def demoFs : FS :=
  { dirs := [str "/m", str "/m/A", str "/m/A/cur", str "/m/A/new", str "/m/A/tmp",
             str "/m/.A.directory", str "/m/.A.directory/B",
             str "/m/.A.directory/B/cur", str "/m/.A.directory/B/new",
             str "/m/.A.directory/B/tmp",
             str "/m/.inbox", str "/m/.inbox/cur", str "/m/.inbox/new",
             str "/m/.inbox/tmp"]
    files := [] }

/-- Configuration for `demoFs` requesting a real run. -/
def demoArgsReal : Args :=
  { folder := str "/m", hierarchy_separator := str ".",
    remove_index_files := false, dry_run := false }

/-- Configuration for `demoFs` requesting a dry run. -/
def demoArgsDry : Args :=
  { folder := str "/m", hierarchy_separator := str ".",
    remove_index_files := false, dry_run := true }

/-- Minimal filesystem with a root directory only. -/
def soloFs : FS := { dirs := [str "/mail"], files := [] }

/-! Claim theorems. -/

/-- Claim C6: a path component of the exact form
`<prefix><token><suffix>` strips to `<token>`, and a component matching
neither the leading-prefix condition nor the trailing-suffix condition
is kept unchanged. -/
theorem c6_stripping_correctness (t p : Str)
    (hpre : KMAIL_SUBDIR_HEAD.isPrefixOf p = false)
    (hsuf : KMAIL_SUBDIR_TAIL.isSuffixOf p = false) :
    stripSegment (KMAIL_SUBDIR_HEAD ++ t ++ KMAIL_SUBDIR_TAIL) = t ∧
    stripSegment p = p := by
  constructor
  · unfold stripSegment
    rw [if_pos]
    · rw [List.length_append, List.length_append]
      have h1 : (KMAIL_SUBDIR_HEAD.length + t.length + KMAIL_SUBDIR_TAIL.length)
          - KMAIL_SUBDIR_TAIL.length = (KMAIL_SUBDIR_HEAD ++ t).length := by
        simp
      rw [h1, List.take_left, List.drop_left]
    · refine ⟨?_, ?_⟩
      · rw [List.isPrefixOf_iff_prefix, List.append_assoc]
        exact List.prefix_append _ _
      · rw [List.isSuffixOf_iff_suffix]
        exact List.suffix_append _ _
  · unfold stripSegment
    rw [if_neg]
    intro h
    rw [hpre] at h
    exact Bool.false_ne_true h.1

/-- Witness for C6 at concrete inputs: `.foo.directory` strips to `foo`,
and `cur` (matching neither condition) is unchanged. -/
theorem c6_stripping_correctness_witness :
    stripSegment (KMAIL_SUBDIR_HEAD ++ str "foo" ++ KMAIL_SUBDIR_TAIL) = str "foo" ∧
    stripSegment (str "cur") = str "cur" :=
  c6_stripping_correctness (str "foo") (str "cur") (by decide) (by decide)

/-- Counterexample for C5: in dry-run mode, `delete` and `rmdir` of a
nonexistent target complete without raising, so no existence pre-check
is performed for them. -/
theorem c5_counterexample :
    ¬ pathExists soloFs (str "/mail/ghost") ∧
    FileSystemAction.delete { dry_run := true, quiet := false } (str "/mail/ghost")
        { fs := soloFs, trace := [] }
      = ({ fs := soloFs, trace := [Op.deleteOp (str "/mail/ghost")] }, none) ∧
    FileSystemAction.rmdir { dry_run := true, quiet := false } (str "/mail/ghost")
        { fs := soloFs, trace := [] }
      = ({ fs := soloFs, trace := [Op.rmdirOp (str "/mail/ghost")] }, none) := by
  decide

/-- Amended C5: only `rename` performs a pre-check (destination
existence), and it does so even in dry-run mode; `delete` and `rmdir`
perform no existence pre-check — in dry-run mode they complete without
raising for every argument. -/
theorem c5_amended_rename_only_precheck (a : FileSystemAction) (src dst f d : Str)
    (st : EngSt) :
    (pathExists st.fs dst → a.rename src dst st = (st, some (FsError.destExists dst))) ∧
    (a.dry_run = true → (a.delete f st).2 = none ∧ (a.rmdir d st).2 = none) := by
  refine ⟨fun h => ?_, fun h => ?_⟩
  · unfold FileSystemAction.rename
    rw [if_pos h]
  · unfold FileSystemAction.delete FileSystemAction.rmdir FileSystemAction.runOp
    rw [if_pos h, if_pos h]
    exact ⟨rfl, rfl⟩

/-- Witness for the amended C5 at concrete inputs. -/
theorem c5_amended_rename_only_precheck_witness :
    (FileSystemAction.rename { dry_run := true, quiet := true } (str "/x") (str "/mail")
        { fs := soloFs, trace := [] }
      = ({ fs := soloFs, trace := [] }, some (FsError.destExists (str "/mail")))) ∧
    ((FileSystemAction.delete { dry_run := true, quiet := true } (str "/y")
        { fs := soloFs, trace := [] }).2 = none ∧
     (FileSystemAction.rmdir { dry_run := true, quiet := true } (str "/z")
        { fs := soloFs, trace := [] }).2 = none) :=
  ⟨(c5_amended_rename_only_precheck { dry_run := true, quiet := true }
      (str "/x") (str "/mail") (str "/y") (str "/z") { fs := soloFs, trace := [] }).1
      (by decide),
   (c5_amended_rename_only_precheck { dry_run := true, quiet := true }
      (str "/x") (str "/mail") (str "/y") (str "/z") { fs := soloFs, trace := [] }).2
      rfl⟩

/-- Claim C7 (code bug): with root folder `.mail` — a root whose name
starts with the hidden-file marker — the discovery pass returns no
maildirs at all, even though the child `B` of the discovered container
`.mail` is a directory, has a non-hidden name, and contains `cur`,
`new` and `tmp`.  The source filter `d[0] != HIDDEN_FILE_PREFIX` tests
the first character of the full joined path instead of the child's
name. -/
theorem c7_hidden_root_discovers_nothing :
    get_maildirs_from_subfoldercontainers hiddenRootFs hiddenRootContainers = [] ∧
    str ".mail" ∈ hiddenRootContainers ∧
    str ".mail/B" ∈ hiddenRootFs.dirs ∧
    childName (str ".mail") (str ".mail/B") = some (str "B") ∧
    patStar (str "B") = true ∧
    is_maildir hiddenRootFs (str ".mail/B") = true := by
  decide

/-- Claim C10: with index-file removal requested, the dry validation
pass and the real pass attempt different operation sequences on the
same tree: the real pass empties container `.A.directory` (rename plus
index-file delete) and therefore issues an `rmdir` for it, while the
dry pass — whose deletions do not happen — sees a non-empty container
and never attempts that `rmdir`.  Both passes complete without error. -/
theorem c10_dry_and_real_traces_differ :
    Op.rmdirOp (str "/mail/.A.directory") ∈
      (move_kmail_folders idxArgs { dry_run := false, quiet := false }
        { fs := idxFs, trace := [] }).1.trace ∧
    Op.rmdirOp (str "/mail/.A.directory") ∉
      (move_kmail_folders idxArgs { dry_run := true, quiet := true }
        { fs := idxFs, trace := [] }).1.trace ∧
    Op.deleteOp (str "/mail/.A.directory/.B.index") ∈
      (move_kmail_folders idxArgs { dry_run := true, quiet := true }
        { fs := idxFs, trace := [] }).1.trace ∧
    (move_kmail_folders idxArgs { dry_run := true, quiet := true }
        { fs := idxFs, trace := [] }).2 = none ∧
    (move_kmail_folders idxArgs { dry_run := false, quiet := false }
        { fs := idxFs, trace := [] }).2 = none := by
  decide

/-- Counterexample for C1: on `collideFs` two distinct discovered
folders flatten to the same `/mail/.A.B`, yet the quiet validation
dry-run pass completes without raising any error; the real pass is then
entered and fails partway through with the collision error, after
having already mutated the filesystem. -/
theorem c1_counterexample :
    (sortedMaildirs collideArgs collideFs).map Maildir.directory
      = [str "/mail/A.B", str "/mail/.A.directory/B"] ∧
    (sortedMaildirs collideArgs collideFs).map Maildir.get_folder_path
      = [str "/mail/.A.B", str "/mail/.A.B"] ∧
    (move_kmail_folders collideArgs { dry_run := true, quiet := true }
        { fs := collideFs, trace := [] }).2 = none ∧
    (kmail2maildir collideArgs collideFs).2
      = some (FsError.destExists (str "/mail/.A.B")) ∧
    (kmail2maildir collideArgs collideFs).1.fs ≠ collideFs := by
  decide

/-- Counterexample for C2: two discovered folders with distinct
original directories whose flattened paths coincide (the separator `.`
occurs in the root-level folder name `A.B`). -/
theorem c2_counterexample :
    Maildir.make collideArgs (str "/mail/A.B") ∈ sortedMaildirs collideArgs collideFs ∧
    Maildir.make collideArgs (str "/mail/.A.directory/B") ∈
      sortedMaildirs collideArgs collideFs ∧
    (Maildir.make collideArgs (str "/mail/A.B")).directory ≠
      (Maildir.make collideArgs (str "/mail/.A.directory/B")).directory ∧
    (Maildir.make collideArgs (str "/mail/A.B")).get_folder_path =
      (Maildir.make collideArgs (str "/mail/.A.directory/B")).get_folder_path := by
  decide

/-! Helper lemmas about dry-mode gateway behaviour. -/

/-- Dry-mode `__run`: record the operation, touch nothing, never fail. -/
theorem runOp_dry (a : FileSystemAction) (h : a.dry_run = true) (op : Op) (st : EngSt) :
    a.runOp op st = ({ st with trace := st.trace ++ [op] }, none) := by
  unfold FileSystemAction.runOp
  rw [if_pos h]

/-- Dry-mode `rename` either raises the destination-exists error (state
untouched) or records the rename (filesystem untouched). -/
theorem rename_dry (a : FileSystemAction) (h : a.dry_run = true) (src dst : Str)
    (st : EngSt) :
    (pathExists st.fs dst →
      a.rename src dst st = (st, some (FsError.destExists dst))) ∧
    (¬ pathExists st.fs dst →
      a.rename src dst st
        = ({ st with trace := st.trace ++ [Op.renameOp src dst] }, none)) := by
  constructor
  · intro hex
    unfold FileSystemAction.rename
    rw [if_pos hex]
  · intro hex
    unfold FileSystemAction.rename
    rw [if_neg hex, runOp_dry a h]

/-- Dry-mode `deleteAll` never fails and leaves the filesystem
untouched. -/
theorem deleteAll_dry (a : FileSystemAction) (h : a.dry_run = true) :
    ∀ (fl : List Str) (st : EngSt),
      (deleteAll a fl st).1.fs = st.fs ∧ (deleteAll a fl st).2 = none := by
  intro fl
  induction fl with
  | nil => intro st; exact ⟨rfl, rfl⟩
  | cons f rest ih =>
    intro st
    have hd : a.delete f st = ({ st with trace := st.trace ++ [Op.deleteOp f] }, none) :=
      runOp_dry a h _ st
    unfold deleteAll
    rw [hd]
    exact ih _

/-- Dry-mode `remove_index_files` never fails and leaves the filesystem
untouched. -/
theorem remove_index_files_dry (a : FileSystemAction) (h : a.dry_run = true)
    (m : Maildir) (st : EngSt) :
    (remove_index_files a m st).1.fs = st.fs ∧ (remove_index_files a m st).2 = none := by
  unfold remove_index_files
  exact deleteAll_dry a h _ st

/-- Dry-mode per-folder step: the filesystem is untouched, and the only
possible error is the destination-exists collision for this folder's
flattened path, which then already exists on the (unchanged)
filesystem. -/
theorem processOne_dry (a : FileSystemAction) (h : a.dry_run = true) (args : Args)
    (m : Maildir) (st : EngSt) :
    (processOne a args m st).1.fs = st.fs ∧
    (∀ e, (processOne a args m st).2 = some e →
      e = FsError.destExists m.get_folder_path ∧ pathExists st.fs m.get_folder_path) := by
  unfold processOne
  by_cases hex : pathExists st.fs m.get_folder_path
  · rw [(rename_dry a h _ _ st).1 hex]
    exact ⟨rfl, fun e he => ⟨by injection he with h'; rw [h'], hex⟩⟩
  · rw [(rename_dry a h _ _ st).2 hex]
    dsimp only
    set st₁ : EngSt := { st with trace := st.trace ++ [Op.renameOp m.directory m.get_folder_path] } with hst₁
    have hfs₁ : st₁.fs = st.fs := rfl
    by_cases hri : args.remove_index_files
    · rw [if_pos hri]
      obtain ⟨hfs₂, hnone₂⟩ := remove_index_files_dry a h m st₁
      cases hrr : remove_index_files a m st₁ with
      | mk st₂ e₂ =>
        rw [hrr] at hfs₂ hnone₂
        simp only at hfs₂ hnone₂
        subst hnone₂
        dsimp only
        cases hpm : m.get_parent_maildir with
        | none => exact ⟨hfs₂.trans hfs₁, by intro e he; exact absurd he (by simp)⟩
        | some p =>
          dsimp only
          by_cases hemp : is_empty_dir st₂.fs p = true
          · rw [if_pos hemp]
            unfold FileSystemAction.rmdir
            rw [runOp_dry a h]
            exact ⟨hfs₂.trans hfs₁, by intro e he; exact absurd he (by simp)⟩
          · rw [if_neg hemp]
            exact ⟨hfs₂.trans hfs₁, by intro e he; exact absurd he (by simp)⟩
    · rw [if_neg hri]
      dsimp only
      cases hpm : m.get_parent_maildir with
      | none => exact ⟨rfl, by intro e he; exact absurd he (by simp)⟩
      | some p =>
        dsimp only
        by_cases hemp : is_empty_dir st₁.fs p = true
        · rw [if_pos hemp]
          unfold FileSystemAction.rmdir
          rw [runOp_dry a h]
          exact ⟨rfl, by intro e he; exact absurd he (by simp)⟩
        · rw [if_neg hemp]
          exact ⟨rfl, by intro e he; exact absurd he (by simp)⟩

/-- Dry-mode per-folder loop: the filesystem is untouched, and any
error is a destination-exists collision for a path that already exists
on the initial filesystem. -/
theorem processFolders_dry (a : FileSystemAction) (h : a.dry_run = true) (args : Args) :
    ∀ (ms : List Maildir) (st : EngSt),
      (processFolders a args ms st).1.fs = st.fs ∧
      (∀ e, (processFolders a args ms st).2 = some e →
        ∃ dst, e = FsError.destExists dst ∧ pathExists st.fs dst) := by
  intro ms
  induction ms with
  | nil => intro st; exact ⟨rfl, fun e he => Option.noConfusion he⟩
  | cons m rest ih =>
    intro st
    obtain ⟨hfs, herr⟩ := processOne_dry a h args m st
    unfold processFolders
    cases hpo : processOne a args m st with
    | mk st' e' =>
      rw [hpo] at hfs herr
      simp only at hfs herr
      cases e' with
      | none =>
        obtain ⟨ihfs, iherr⟩ := ih st'
        refine ⟨ihfs.trans hfs, ?_⟩
        intro e he
        obtain ⟨dst, hdst, hex⟩ := iherr e he
        exact ⟨dst, hdst, by rw [← hfs]; exact hex⟩
      | some e =>
        obtain ⟨hdst, hex⟩ := herr e rfl
        exact ⟨hfs, fun e' he' => by injection he' with h'; subst h'; exact ⟨_, hdst, hex⟩⟩

/-- Dry-mode `renameInto`: the filesystem is untouched, and any error
is a destination-exists collision for a destination that already exists
on the initial filesystem. -/
theorem renameInto_dry (a : FileSystemAction) (h : a.dry_run = true) (sb db : Str) :
    ∀ (ds : List Str) (st : EngSt),
      (renameInto a sb db ds st).1.fs = st.fs ∧
      (∀ e, (renameInto a sb db ds st).2 = some e →
        ∃ dst, e = FsError.destExists dst ∧ pathExists st.fs dst) := by
  intro ds
  induction ds with
  | nil => intro st; exact ⟨rfl, fun e he => Option.noConfusion he⟩
  | cons d rest ih =>
    intro st
    unfold renameInto
    by_cases hex : pathExists st.fs (joinP db d)
    · rw [(rename_dry a h _ _ st).1 hex]
      exact ⟨rfl, fun e he => by injection he with h'; subst h'; exact ⟨_, rfl, hex⟩⟩
    · rw [(rename_dry a h _ _ st).2 hex]
      exact ih _

/-- Dry-mode inbox relocation: the filesystem is untouched, and any
error is a destination-exists collision for a destination that already
exists on the initial filesystem. -/
theorem inboxRelocate_dry (args : Args) (a : FileSystemAction) (h : a.dry_run = true)
    (st : EngSt) :
    (inboxRelocate args a st).1.fs = st.fs ∧
    (∀ e, (inboxRelocate args a st).2 = some e →
      ∃ dst, e = FsError.destExists dst ∧ pathExists st.fs dst) := by
  unfold inboxRelocate
  dsimp only
  obtain ⟨hfs, herr⟩ := renameInto_dry a h
    (joinP args.folder (HIDDEN_FILE_MARKER ++ str "inbox")) args.folder
    MAILDIR_SPECIAL_DIRS st
  cases hri : renameInto a (joinP args.folder (HIDDEN_FILE_MARKER ++ str "inbox"))
      args.folder MAILDIR_SPECIAL_DIRS st with
  | mk st₁ e₁ =>
    rw [hri] at hfs herr
    simp only at hfs herr
    cases e₁ with
    | none =>
      dsimp only
      unfold FileSystemAction.rmdir
      rw [runOp_dry a h]
      exact ⟨hfs, by intro e he; exact absurd he (by simp)⟩
    | some e =>
      dsimp only
      exact ⟨hfs, fun e' he' => by injection he' with h'; subst h'; exact herr e rfl⟩

/-- Dry-mode full engine run: the filesystem is untouched, and any
error is a destination-exists collision for a destination that already
exists on the initial filesystem. -/
theorem move_kmail_folders_dry (args : Args) (a : FileSystemAction)
    (h : a.dry_run = true) (st : EngSt) :
    (move_kmail_folders args a st).1.fs = st.fs ∧
    (∀ e, (move_kmail_folders args a st).2 = some e →
      ∃ dst, e = FsError.destExists dst ∧ pathExists st.fs dst) := by
  unfold move_kmail_folders
  obtain ⟨hfs, herr⟩ := processFolders_dry a h args (sortedMaildirs args st.fs) st
  cases hpf : processFolders a args (sortedMaildirs args st.fs) st with
  | mk st₁ e₁ =>
    rw [hpf] at hfs herr
    simp only at hfs herr
    cases e₁ with
    | none =>
      obtain ⟨hfs₂, herr₂⟩ := inboxRelocate_dry args a h st₁
      refine ⟨hfs₂.trans hfs, ?_⟩
      intro e he
      obtain ⟨dst, hdst, hex⟩ := herr₂ e he
      exact ⟨dst, hdst, by rw [← hfs]; exact hex⟩
    | some e => exact ⟨hfs, fun e' he' => by injection he' with h'; subst h'; exact herr e rfl⟩

/-- Claim C3: a dry-run invocation performs no mutating filesystem
operation — the filesystem after `kmail2maildir` with the dry-run flag
set is identical to the initial one, whether the pass completed or
aborted with an error. -/
theorem c3_dry_run_non_mutation (args : Args) (fs : FS) (h : args.dry_run = true) :
    (kmail2maildir args fs).1.fs = fs := by
  unfold kmail2maildir
  rw [if_pos h]
  exact (move_kmail_folders_dry args _ rfl _).1

/-- Witness for C3 on a concrete tree. -/
theorem c3_dry_run_non_mutation_witness :
    (kmail2maildir demoArgsDry demoFs).1.fs = demoFs :=
  c3_dry_run_non_mutation demoArgsDry demoFs rfl

/-- Amended C1: the validation dry-run pass never mutates the
filesystem, and it raises a destination-exists error only for a
destination that already exists on the pre-run filesystem — a collision
between two folders flattening to the same fresh path is not detected
by it (see the counterexample).  The real pass is entered exactly when
the full simulated pass completes without an error. -/
theorem c1_amended_validation_behaviour (args : Args) (fs : FS)
    (h : args.dry_run = false) :
    ((move_kmail_folders args { dry_run := true, quiet := true }
        { fs := fs, trace := [] }).1.fs = fs) ∧
    (∀ e, (move_kmail_folders args { dry_run := true, quiet := true }
        { fs := fs, trace := [] }).2 = some e →
      ∃ dst, e = FsError.destExists dst ∧ pathExists fs dst) ∧
    ((move_kmail_folders args { dry_run := true, quiet := true }
        { fs := fs, trace := [] }).2 = none →
      kmail2maildir args fs
        = move_kmail_folders args { dry_run := false, quiet := false }
            { fs := fs, trace := [] }) ∧
    (∀ e, (move_kmail_folders args { dry_run := true, quiet := true }
        { fs := fs, trace := [] }).2 = some e →
      kmail2maildir args fs
        = ((move_kmail_folders args { dry_run := true, quiet := true }
            { fs := fs, trace := [] }).1, some e)) := by
  obtain ⟨hfs, herr⟩ := move_kmail_folders_dry args { dry_run := true, quiet := true }
    rfl { fs := fs, trace := [] }
  refine ⟨hfs, herr, ?_, ?_⟩
  · intro hnone
    unfold kmail2maildir
    rw [if_neg (by simp [h])]
    cases hmv : move_kmail_folders args { dry_run := true, quiet := true }
        { fs := fs, trace := [] } with
    | mk st₁ e₁ =>
      rw [hmv] at hnone
      simp only at hnone
      subst hnone
      rfl
  · intro e he
    unfold kmail2maildir
    rw [if_neg (by simp [h])]
    cases hmv : move_kmail_folders args { dry_run := true, quiet := true }
        { fs := fs, trace := [] } with
    | mk st₁ e₁ =>
      rw [hmv] at he
      simp only at he
      subst he
      rfl

/-- Witness for the amended C1 on a concrete healthy tree: its
validation pass succeeds, so the driver equals the real pass. -/
theorem c1_amended_validation_behaviour_witness :
    kmail2maildir demoArgsReal demoFs
      = move_kmail_folders demoArgsReal { dry_run := false, quiet := false }
          { fs := demoFs, trace := [] } :=
  (c1_amended_validation_behaviour demoArgsReal demoFs rfl).2.2.1 (by decide)

/-- Dry-mode `renameInto` succeeds whenever none of its destinations
exist on the (unchanged) filesystem. -/
theorem renameInto_dry_ok (a : FileSystemAction) (h : a.dry_run = true) (sb db : Str) :
    ∀ (ds : List Str) (st : EngSt),
      (∀ d ∈ ds, ¬ pathExists st.fs (joinP db d)) →
      (renameInto a sb db ds st).2 = none := by
  intro ds
  induction ds with
  | nil => intro st _; rfl
  | cons d rest ih =>
    intro st hds
    unfold renameInto
    rw [(rename_dry a h _ _ st).2 (hds d (by simp))]
    dsimp only
    exact ih _ (fun d' hd' => hds d' (by simp [hd']))

/-- Claim C9: in dry-run mode `rename` raises exactly when the
destination exists (the source is never consulted), and `delete` and
`rmdir` never raise; consequently, on a tree whose root `cur`, `new`,
`tmp` do not pre-exist — whether or not a hidden `inbox` directory is
present — the dry inbox-relocation step completes without error. -/
theorem c9_dry_inbox_relocation_never_fails (args : Args) (a : FileSystemAction)
    (st : EngSt) (h : a.dry_run = true)
    (hcur : ¬ pathExists st.fs (joinP args.folder (str "cur")))
    (hnew : ¬ pathExists st.fs (joinP args.folder (str "new")))
    (htmp : ¬ pathExists st.fs (joinP args.folder (str "tmp"))) :
    (inboxRelocate args a st).2 = none ∧
    (∀ src dst st', ¬ pathExists st'.fs dst → (a.rename src dst st').2 = none) ∧
    (∀ src dst st', pathExists st'.fs dst →
      a.rename src dst st' = (st', some (FsError.destExists dst))) ∧
    (∀ f st', (a.delete f st').2 = none) ∧
    (∀ d st', (a.rmdir d st').2 = none) := by
  refine ⟨?_, ?_, ?_, ?_, ?_⟩
  · unfold inboxRelocate
    dsimp only
    have hok := renameInto_dry_ok a h
      (joinP args.folder (HIDDEN_FILE_MARKER ++ str "inbox")) args.folder
      MAILDIR_SPECIAL_DIRS st
      (by
        intro d hd
        have hd3 : d = str "cur" ∨ d = str "new" ∨ d = str "tmp" := by
          simpa [MAILDIR_SPECIAL_DIRS] using hd
        rcases hd3 with rfl | rfl | rfl
        · exact hcur
        · exact hnew
        · exact htmp)
    cases hri : renameInto a (joinP args.folder (HIDDEN_FILE_MARKER ++ str "inbox"))
        args.folder MAILDIR_SPECIAL_DIRS st with
    | mk st₁ e₁ =>
      rw [hri] at hok
      simp only at hok
      subst hok
      dsimp only
      unfold FileSystemAction.rmdir
      rw [runOp_dry a h]
  · intro src dst st' hex
    rw [(rename_dry a h src dst st').2 hex]
  · intro src dst st' hex
    exact (rename_dry a h src dst st').1 hex
  · intro f st'
    unfold FileSystemAction.delete
    rw [runOp_dry a h]
  · intro d st'
    unfold FileSystemAction.rmdir
    rw [runOp_dry a h]

/-- Witness for C9 on a concrete tree with no hidden inbox and no root
`cur`, `new`, `tmp` (the inbox-less variant of the demo tree). -/
theorem c9_dry_inbox_relocation_never_fails_witness :
    (inboxRelocate demoArgsDry { dry_run := true, quiet := false }
      { fs := soloFs, trace := [] }).2 = none :=
  (c9_dry_inbox_relocation_never_fails demoArgsDry { dry_run := true, quiet := false }
    { fs := soloFs, trace := [] } rfl (by decide) (by decide) (by decide)).1

/-- Successful `rename` (in either mode) appends exactly its operation
to the trace. -/
theorem rename_ok_trace (a : FileSystemAction) (src dst : Str) (st st' : EngSt)
    (h : a.rename src dst st = (st', none)) :
    st'.trace = st.trace ++ [Op.renameOp src dst] := by
  unfold FileSystemAction.rename FileSystemAction.runOp at h
  by_cases hex : pathExists st.fs dst
  · rw [if_pos hex] at h
    exact absurd (congrArg Prod.snd h) (by simp)
  · rw [if_neg hex] at h
    by_cases hd : a.dry_run = true
    · rw [if_pos hd] at h
      injection h with h1 h2
      rw [← h1]
    · rw [if_neg hd] at h
      cases hap : applyOp st.fs (Op.renameOp src dst) with
      | some fs' =>
        rw [hap] at h
        injection h with h1 h2
        rw [← h1]
      | none =>
        rw [hap] at h
        exact absurd (congrArg Prod.snd h) (by simp)

/-- Successful `rmdir` (in either mode) appends exactly its operation
to the trace. -/
theorem rmdir_ok_trace (a : FileSystemAction) (d : Str) (st st' : EngSt)
    (h : a.rmdir d st = (st', none)) :
    st'.trace = st.trace ++ [Op.rmdirOp d] := by
  unfold FileSystemAction.rmdir FileSystemAction.runOp at h
  by_cases hd : a.dry_run = true
  · rw [if_pos hd] at h
    injection h with h1 h2
    rw [← h1]
  · rw [if_neg hd] at h
    cases hap : applyOp st.fs (Op.rmdirOp d) with
    | some fs' =>
      rw [hap] at h
      injection h with h1 h2
      rw [← h1]
    | none =>
      rw [hap] at h
      exact absurd (congrArg Prod.snd h) (by simp)

/-- A successful `renameInto` appends exactly its renames, in list
order. -/
theorem renameInto_ok_trace (a : FileSystemAction) (sb db : Str) :
    ∀ (ds : List Str) (st : EngSt),
      (renameInto a sb db ds st).2 = none →
      (renameInto a sb db ds st).1.trace =
        st.trace ++ ds.map (fun d => Op.renameOp (joinP sb d) (joinP db d)) := by
  intro ds
  induction ds with
  | nil => intro st _; simp [renameInto]
  | cons d rest ih =>
    intro st hnone
    unfold renameInto at hnone ⊢
    cases hr : a.rename (joinP sb d) (joinP db d) st with
    | mk st' e' =>
      rw [hr] at hnone
      cases e' with
      | none =>
        dsimp only at hnone ⊢
        rw [ih st' hnone, rename_ok_trace a _ _ st st' hr]
        simp
      | some e =>
        dsimp only at hnone
        exact Option.noConfusion hnone

/-- A successful inbox relocation appends exactly the three renames
(`cur`, `new`, `tmp`, in that order) followed by the inbox `rmdir`. -/
theorem inboxRelocate_ok_trace (args : Args) (a : FileSystemAction) (st : EngSt)
    (h : (inboxRelocate args a st).2 = none) :
    (inboxRelocate args a st).1.trace = st.trace ++
      [Op.renameOp (joinP (joinP args.folder (HIDDEN_FILE_MARKER ++ str "inbox")) (str "cur"))
         (joinP args.folder (str "cur")),
       Op.renameOp (joinP (joinP args.folder (HIDDEN_FILE_MARKER ++ str "inbox")) (str "new"))
         (joinP args.folder (str "new")),
       Op.renameOp (joinP (joinP args.folder (HIDDEN_FILE_MARKER ++ str "inbox")) (str "tmp"))
         (joinP args.folder (str "tmp")),
       Op.rmdirOp (joinP args.folder (HIDDEN_FILE_MARKER ++ str "inbox"))] := by
  unfold inboxRelocate at h ⊢
  dsimp only at h ⊢
  cases hri : renameInto a (joinP args.folder (HIDDEN_FILE_MARKER ++ str "inbox"))
      args.folder MAILDIR_SPECIAL_DIRS st with
  | mk st₁ e₁ =>
    rw [hri] at h
    cases e₁ with
    | none =>
      dsimp only at h ⊢
      cases hrm : FileSystemAction.rmdir a
          (joinP args.folder (HIDDEN_FILE_MARKER ++ str "inbox")) st₁ with
      | mk st₂ e₂ =>
        rw [hrm] at h
        cases e₂ with
        | none =>
          dsimp only
          have ht₁ := renameInto_ok_trace a _ _ MAILDIR_SPECIAL_DIRS st (by rw [hri])
          rw [hri] at ht₁
          dsimp only at ht₁
          rw [rmdir_ok_trace a _ st₁ st₂ hrm, ht₁]
          simp [MAILDIR_SPECIAL_DIRS]
        | some e =>
          dsimp only at h
          exact Option.noConfusion h
    | some e =>
      dsimp only at h
      exact Option.noConfusion h

/-- Claim C8: in every run that completes, the inbox relocation comes
only after the whole per-folder phase: the operation trace is the
per-folder trace followed by exactly the renames of `cur`, `new`, `tmp`
from the hidden inbox directory to the root (in that fixed order) and
finally the removal of the hidden inbox directory. -/
theorem c8_inbox_relocation_last (args : Args) (fsa : FileSystemAction) (fs : FS)
    (h : (move_kmail_folders args fsa { fs := fs, trace := [] }).2 = none) :
    (move_kmail_folders args fsa { fs := fs, trace := [] }).1.trace =
      (processFolders fsa args (sortedMaildirs args fs) { fs := fs, trace := [] }).1.trace ++
        [Op.renameOp (joinP (joinP args.folder (HIDDEN_FILE_MARKER ++ str "inbox")) (str "cur"))
           (joinP args.folder (str "cur")),
         Op.renameOp (joinP (joinP args.folder (HIDDEN_FILE_MARKER ++ str "inbox")) (str "new"))
           (joinP args.folder (str "new")),
         Op.renameOp (joinP (joinP args.folder (HIDDEN_FILE_MARKER ++ str "inbox")) (str "tmp"))
           (joinP args.folder (str "tmp")),
         Op.rmdirOp (joinP args.folder (HIDDEN_FILE_MARKER ++ str "inbox"))] := by
  unfold move_kmail_folders at h ⊢
  dsimp only at h ⊢
  cases hpf : processFolders fsa args (sortedMaildirs args fs) { fs := fs, trace := [] } with
  | mk st₁ e₁ =>
    rw [hpf] at h
    cases e₁ with
    | none =>
      dsimp only at h ⊢
      exact inboxRelocate_ok_trace args fsa st₁ h
    | some e =>
      dsimp only at h
      exact Option.noConfusion h

/-- Witness for C8 on a concrete run of the demo tree. -/
theorem c8_inbox_relocation_last_witness :
    (move_kmail_folders demoArgsDry { dry_run := true, quiet := false }
        { fs := demoFs, trace := [] }).1.trace =
      (processFolders { dry_run := true, quiet := false } demoArgsDry
          (sortedMaildirs demoArgsDry demoFs) { fs := demoFs, trace := [] }).1.trace ++
        [Op.renameOp (joinP (joinP demoArgsDry.folder (HIDDEN_FILE_MARKER ++ str "inbox")) (str "cur"))
           (joinP demoArgsDry.folder (str "cur")),
         Op.renameOp (joinP (joinP demoArgsDry.folder (HIDDEN_FILE_MARKER ++ str "inbox")) (str "new"))
           (joinP demoArgsDry.folder (str "new")),
         Op.renameOp (joinP (joinP demoArgsDry.folder (HIDDEN_FILE_MARKER ++ str "inbox")) (str "tmp"))
           (joinP demoArgsDry.folder (str "tmp")),
         Op.rmdirOp (joinP demoArgsDry.folder (HIDDEN_FILE_MARKER ++ str "inbox"))] :=
  c8_inbox_relocation_last demoArgsDry { dry_run := true, quiet := false } demoFs (by decide)

/-! Lemmas about the lexicographic string order and the sort. -/

/-- Python string `<` is irreflexive. -/
theorem strLt_irrefl : ∀ s : Str, strLt s s = false := by
  intro s
  induction s with
  | nil => rfl
  | cons c cs ih =>
    unfold strLt
    rw [if_neg (lt_irrefl c), if_neg (lt_irrefl c)]
    exact ih

/-- Python string `<` is transitive. -/
theorem strLt_trans : ∀ (a b c : Str),
    strLt a b = true → strLt b c = true → strLt a c = true := by
  intro a
  induction a with
  | nil =>
    intro b c hab hbc
    cases b with
    | nil => exact absurd hab (by simp [strLt])
    | cons bb bs =>
      cases c with
      | nil => exact absurd hbc (by simp [strLt])
      | cons cc cs => rfl
  | cons aa as ih =>
    intro b c hab hbc
    cases b with
    | nil => exact absurd hab (by simp [strLt])
    | cons bb bs =>
      cases c with
      | nil => exact absurd hbc (by simp [strLt])
      | cons cc cs =>
        unfold strLt at hab hbc ⊢
        by_cases h1 : aa < bb
        · by_cases h2 : bb < cc
          · rw [if_pos (h1.trans h2)]
          · rw [if_neg h2] at hbc
            by_cases h3 : cc < bb
            · rw [if_pos h3] at hbc
              exact absurd hbc (by simp)
            · have heq : bb = cc := le_antisymm (not_lt.mp h3) (not_lt.mp h2)
              rw [if_pos (heq ▸ h1)]
        · rw [if_neg h1] at hab
          by_cases h4 : bb < aa
          · rw [if_pos h4] at hab
            exact absurd hab (by simp)
          · rw [if_neg h4] at hab
            have heq : aa = bb := le_antisymm (not_lt.mp h4) (not_lt.mp h1)
            subst heq
            by_cases h2 : aa < cc
            · rw [if_pos h2]
            · rw [if_neg h2] at hbc ⊢
              by_cases h3 : cc < aa
              · rw [if_pos h3] at hbc
                exact absurd hbc (by simp)
              · rw [if_neg h3] at hbc ⊢
                exact ih bs cs hab hbc

/-- Python string `<` is connected: mutually incomparable strings are
equal. -/
theorem strLt_conn : ∀ (a b : Str),
    strLt a b = false → strLt b a = false → a = b := by
  intro a
  induction a with
  | nil =>
    intro b hab _
    cases b with
    | nil => rfl
    | cons bb bs => exact absurd hab (by simp [strLt])
  | cons aa as ih =>
    intro b hab hba
    cases b with
    | nil => exact absurd hba (by simp [strLt])
    | cons bb bs =>
      unfold strLt at hab hba
      by_cases h1 : aa < bb
      · rw [if_pos h1] at hab
        exact absurd hab (by simp)
      · rw [if_neg h1] at hab
        by_cases h2 : bb < aa
        · rw [if_pos h2] at hba
          exact absurd hba (by simp)
        · rw [if_neg h2] at hab
          rw [if_neg h2, if_neg h1] at hba
          have heq : aa = bb := le_antisymm (not_lt.mp h2) (not_lt.mp h1)
          rw [heq, ih bs hab hba]

/-- A string is lexicographically smaller than any of its strict
extensions. -/
theorem strLt_append : ∀ (l s : Str), s ≠ [] → strLt l (l ++ s) = true := by
  intro l
  induction l with
  | nil =>
    intro s hs
    cases s with
    | nil => exact absurd rfl hs
    | cons c cs => rfl
  | cons a as ih =>
    intro s hs
    have hred : (a :: as) ++ s = a :: (as ++ s) := rfl
    rw [hred]
    unfold strLt
    rw [if_neg (lt_irrefl a), if_neg (lt_irrefl a)]
    exact ih s hs

/-- The descending sort relation is total. -/
theorem maildirBefore_total : ∀ a b : Maildir, maildirBefore a b ∨ maildirBefore b a := by
  intro a b
  unfold maildirBefore
  cases hab : strLt a.get_folder_path b.get_folder_path with
  | false => exact Or.inl rfl
  | true =>
    right
    cases hba : strLt b.get_folder_path a.get_folder_path with
    | false => rfl
    | true =>
      have h := strLt_trans _ _ _ hab hba
      rw [strLt_irrefl] at h
      exact absurd h (by simp)

/-- The descending sort relation is transitive. -/
theorem maildirBefore_trans : ∀ a b c : Maildir,
    maildirBefore a b → maildirBefore b c → maildirBefore a c := by
  intro a b c hab hbc
  unfold maildirBefore at hab hbc ⊢
  cases hac : strLt a.get_folder_path c.get_folder_path with
  | false => rfl
  | true =>
    exfalso
    cases hba : strLt b.get_folder_path a.get_folder_path with
    | false =>
      have heq := strLt_conn _ _ hab hba
      rw [heq, hbc] at hac
      exact absurd hac (by simp)
    | true =>
      have h := strLt_trans _ _ _ hba hac
      rw [hbc] at h
      exact absurd h (by simp)

instance : IsTotal Maildir maildirBefore := ⟨maildirBefore_total⟩

instance : IsTrans Maildir maildirBefore := ⟨maildirBefore_trans⟩

/-- The discovery-and-sort phase really is sorted by `maildirBefore`,
i.e. by flattened path in descending lexicographic order. -/
theorem sortedMaildirs_sorted (args : Args) (fs : FS) :
    List.Sorted maildirBefore (sortedMaildirs args fs) := by
  unfold sortedMaildirs
  exact List.sorted_insertionSort maildirBefore _

/-- Every member of the sorted list is a `Maildir.make` of some
discovered path (so in particular carries `args` as its
configuration). -/
theorem mem_sortedMaildirs (args : Args) (fs : FS) (m : Maildir)
    (h : m ∈ sortedMaildirs args fs) : ∃ p, m = Maildir.make args p := by
  unfold sortedMaildirs at h
  have hmem := (List.perm_insertionSort maildirBefore _).mem_iff.mp h
  rw [List.mem_map] at hmem
  obtain ⟨p, _, hp⟩ := hmem
  exact ⟨p, hp.symm⟩

/-- `str.split` never returns an empty list. -/
theorem splitOnSlash_ne_nil : ∀ s : Str, splitOnSlash s ≠ [] := by
  intro s
  cases s with
  | nil => simp [splitOnSlash]
  | cons c rest =>
    unfold splitOnSlash
    by_cases h : c = '/'
    · simp [h]
    · rw [if_neg h]
      cases splitOnSlash rest <;> simp

/-- A constructed `Maildir` has a nonempty logical segment list
(`path_list` invariant from the spec). -/
theorem make_path_list_ne_nil (options : Args) (directory : Str) :
    (Maildir.make options directory).path_list ≠ [] := by
  unfold Maildir.make
  simp only
  rw [Ne, List.map_eq_nil_iff]
  exact splitOnSlash_ne_nil _

/-- Appending distributes over `joinSep` for nonempty halves. -/
theorem joinSep_append (sep : Str) :
    ∀ (l₁ l₂ : List Str), l₁ ≠ [] → l₂ ≠ [] →
      joinSep sep (l₁ ++ l₂) = joinSep sep l₁ ++ sep ++ joinSep sep l₂ := by
  intro l₁
  induction l₁ with
  | nil => intro l₂ h _; exact absurd rfl h
  | cons x xs ih =>
    intro l₂ h hl₂
    cases xs with
    | nil =>
      cases l₂ with
      | nil => exact absurd rfl hl₂
      | cons y ys => simp [joinSep]
    | cons x₂ t =>
      have hx : x :: x₂ :: t ++ l₂ = x :: (x₂ :: t ++ l₂) := rfl
      have hne : x₂ :: t ++ l₂ ≠ [] := by simp
      cases hc : x₂ :: t ++ l₂ with
      | nil => exact absurd hc (by simp)
      | cons z zs =>
        have e₁ : joinSep sep (x :: x₂ :: t ++ l₂) = x ++ sep ++ joinSep sep (x₂ :: t ++ l₂) := by
          rw [hx, hc]
          cases zs <;> rfl
        rw [e₁, ih l₂ (by simp) hl₂]
        have e₂ : joinSep sep (x :: x₂ :: t) = x ++ sep ++ joinSep sep (x₂ :: t) := rfl
        rw [e₂]
        simp [List.append_assoc]

/-- `joinP` distributes over a right append. -/
theorem joinP_append_right (a x y : Str) : joinP a (x ++ y) = joinP a x ++ y := by
  unfold joinP
  by_cases h : a = []
  · rw [if_pos h, if_pos h]
  · rw [if_neg h, if_neg h]
    simp

/-! Lemmas for the no-collision analysis (amended C2). -/

/-- Splitting after a slash-free component peels it off. -/
theorem splitOnSlash_append_slash (x : Str) (hx : '/' ∉ x) (rest : Str) :
    splitOnSlash (x ++ '/' :: rest) = x :: splitOnSlash rest := by
  induction x with
  | nil =>
    show splitOnSlash ('/' :: rest) = [] :: splitOnSlash rest
    conv =>
      lhs
      unfold splitOnSlash
    rw [if_pos rfl]
  | cons c cs ih =>
    have hc : c ≠ '/' := fun h => hx (by simp [h])
    have hcs : '/' ∉ cs := fun h => hx (by simp [h])
    show splitOnSlash (c :: (cs ++ '/' :: rest)) = (c :: cs) :: splitOnSlash rest
    conv =>
      lhs
      unfold splitOnSlash
    rw [if_neg hc, ih hcs]

/-- Splitting a slash-free string yields a singleton. -/
theorem splitOnSlash_no_slash : ∀ (x : Str), '/' ∉ x → splitOnSlash x = [x] := by
  intro x
  induction x with
  | nil => intro _; rfl
  | cons c cs ih =>
    intro hx
    have hc : c ≠ '/' := fun h => hx (by simp [h])
    have hcs : '/' ∉ cs := fun h => hx (by simp [h])
    conv =>
      lhs
      unfold splitOnSlash
    rw [if_neg hc, ih hcs]

/-- Splitting on `'/'` inverts joining with `'/'` for slash-free
components. -/
theorem splitOnSlash_joinSlash : ∀ (comps : List Str), comps ≠ [] →
    (∀ x ∈ comps, '/' ∉ x) → splitOnSlash (joinSep (str "/") comps) = comps := by
  intro comps
  induction comps with
  | nil => intro h _; exact absurd rfl h
  | cons x xs ih =>
    intro _ hsl
    cases xs with
    | nil => exact splitOnSlash_no_slash x (hsl x (by simp))
    | cons y t =>
      have e₁ : joinSep (str "/") (x :: y :: t) = x ++ '/' :: joinSep (str "/") (y :: t) := by
        show x ++ str "/" ++ joinSep (str "/") (y :: t) = _
        simp [str]
      rw [e₁, splitOnSlash_append_slash x (hsl x (by simp)),
        ih (by simp) (fun z hz => hsl z (by simp [hz]))]

/-- `relpath` undoes `join` below a fixed base. -/
theorem relpathUnder_joinP (folder r : Str) : relpathUnder (joinP folder r) folder = r := by
  unfold relpathUnder joinP
  by_cases h : folder = []
  · rw [if_pos h, if_pos h]
  · rw [if_neg h, if_neg h]
    have e : folder ++ '/' :: r = (folder ++ ['/']) ++ r := by simp
    have elen : folder.length + 1 = (folder ++ ['/']).length := by simp
    rw [e, elen, List.drop_left]

/-- Joining is associative with a nonempty middle component. -/
theorem joinP_assoc (a x y : Str) (hx : x ≠ []) :
    joinP (joinP a x) y = joinP a (x ++ '/' :: y) := by
  unfold joinP
  by_cases h : a = []
  · rw [if_pos h, if_pos h, if_neg hx]
  · rw [if_neg h, if_neg h, if_neg (by simp [h])]
    simp

/-- `joinSep` of a nonempty list of nonempty components is nonempty. -/
theorem joinSep_ne_nil (sep : Str) : ∀ (l : List Str), l ≠ [] →
    (∀ x ∈ l, x ≠ []) → joinSep sep l ≠ [] := by
  intro l
  induction l with
  | nil => intro h _; exact absurd rfl h
  | cons x xs _ =>
    intro _ hx
    cases xs with
    | nil => exact hx x (by simp)
    | cons y t =>
      show x ++ sep ++ joinSep sep (y :: t) ≠ []
      have := hx x (by simp)
      simp [this]

/-- The computed `path_list` of a folder whose directory is a join of
slash-free components below the root: componentwise stripping. -/
theorem make_path_list_of_shape (options : Args) (comps : List Str)
    (hne : comps ≠ []) (hsl : ∀ x ∈ comps, '/' ∉ x) :
    (Maildir.make options (joinP options.folder (joinSep (str "/") comps))).path_list
      = comps.map stripSegment := by
  unfold Maildir.make
  simp only
  rw [relpathUnder_joinP, splitOnSlash_joinSlash comps hne hsl]

/-- A name matching the container pattern is exactly its stripped core
wrapped in the container prefix and suffix (the stripping rule is
reversible on container names). -/
theorem container_reconstruct (x : Str) (h : patContainer x = true) :
    x = KMAIL_SUBDIR_HEAD ++ stripSegment x ++ KMAIL_SUBDIR_TAIL := by
  unfold patContainer at h
  simp only [Bool.and_eq_true, decide_eq_true_eq] at h
  obtain ⟨⟨hpre, hsuf⟩, hlen⟩ := h
  unfold stripSegment
  rw [if_pos ⟨hpre, hsuf⟩]
  rw [List.isSuffixOf_iff_suffix] at hsuf
  obtain ⟨t, ht⟩ := hsuf
  have htake : x.take (x.length - KMAIL_SUBDIR_TAIL.length) = t := by
    rw [← ht]
    have e : (t ++ KMAIL_SUBDIR_TAIL).length - KMAIL_SUBDIR_TAIL.length = t.length := by
      simp
    rw [e, List.take_left]
  rw [htake]
  rw [List.isPrefixOf_iff_prefix] at hpre
  obtain ⟨u, hu⟩ := hpre
  have hHead : KMAIL_SUBDIR_HEAD = ['.'] := rfl
  cases t with
  | nil =>
    exfalso
    rw [← ht] at hlen
    exact absurd hlen (by decide)
  | cons c cs =>
    have hcu : c :: (cs ++ KMAIL_SUBDIR_TAIL) = '.' :: u := by
      have e₁ : (c :: cs) ++ KMAIL_SUBDIR_TAIL = c :: (cs ++ KMAIL_SUBDIR_TAIL) := rfl
      rw [← e₁, ht, ← hu, hHead]
      rfl
    injection hcu with hc _
    subst hc
    rw [← ht, hHead]
    rfl

/-- A non-hidden name (as admitted by the `'*'` glob) is left unchanged
by stripping. -/
theorem strip_non_hidden (nm : Str) (h : patStar nm = true) : stripSegment nm = nm := by
  unfold patStar at h
  rw [Bool.not_eq_true'] at h
  unfold stripSegment
  rw [if_neg]
  intro hcond
  have hHM : KMAIL_SUBDIR_HEAD = HIDDEN_FILE_MARKER := rfl
  rw [hHM, h] at hcond
  exact Bool.false_ne_true hcond.1

/-- Stripping is injective on container names. -/
theorem strip_chain_inj : ∀ (l₁ l₂ : List Str),
    (∀ x ∈ l₁, patContainer x = true) → (∀ x ∈ l₂, patContainer x = true) →
    l₁.map stripSegment = l₂.map stripSegment → l₁ = l₂ := by
  intro l₁
  induction l₁ with
  | nil =>
    intro l₂ _ _ h
    cases l₂ with
    | nil => rfl
    | cons y ys => simp at h
  | cons x xs ih =>
    intro l₂ h₁ h₂ h
    cases l₂ with
    | nil => simp at h
    | cons y ys =>
      simp only [List.map_cons, List.cons.injEq] at h
      obtain ⟨hxy, hrest⟩ := h
      have ex := container_reconstruct x (h₁ x (by simp))
      have ey := container_reconstruct y (h₂ y (by simp))
      have hxyeq : x = y := by rw [ex, ey, hxy]
      rw [hxyeq, ih ys (fun z hz => h₁ z (by simp [hz])) (fun z hz => h₂ z (by simp [hz])) hrest]

/-- In a concatenation `a ++ c :: r` where `a` is `c`-free, the
decomposition at the first `c` is unique. -/
theorem firstSep_eq (c : Char) : ∀ (a₁ a₂ r₁ r₂ : Str),
    c ∉ a₁ → c ∉ a₂ → a₁ ++ c :: r₁ = a₂ ++ c :: r₂ → a₁ = a₂ ∧ r₁ = r₂ := by
  intro a₁
  induction a₁ with
  | nil =>
    intro a₂ r₁ r₂ _ h₂ heq
    cases a₂ with
    | nil => simpa using heq
    | cons b bs =>
      exfalso
      have heq' : c :: r₁ = b :: (bs ++ c :: r₂) := heq
      injection heq' with hb _
      exact h₂ (hb ▸ List.mem_cons_self b bs)
  | cons a as ih =>
    intro a₂ r₁ r₂ h₁ h₂ heq
    cases a₂ with
    | nil =>
      exfalso
      have heq' : a :: (as ++ c :: r₁) = c :: r₂ := heq
      injection heq' with hb _
      exact h₁ (hb ▸ List.mem_cons_self a as)
    | cons b bs =>
      have heq' : a :: (as ++ c :: r₁) = b :: (bs ++ c :: r₂) := heq
      injection heq' with hb hrest
      subst hb
      obtain ⟨he, hr⟩ := ih bs r₁ r₂ (fun hc => h₁ (List.mem_cons_of_mem _ hc))
        (fun hc => h₂ (List.mem_cons_of_mem _ hc)) hrest
      exact ⟨by rw [he], hr⟩

/-- Joining with a single-character separator is injective on nonempty
lists of separator-free components. -/
theorem joinSep_single_char_inj (c : Char) : ∀ (l₁ l₂ : List Str),
    l₁ ≠ [] → l₂ ≠ [] →
    (∀ s ∈ l₁, c ∉ s) → (∀ s ∈ l₂, c ∉ s) →
    joinSep [c] l₁ = joinSep [c] l₂ → l₁ = l₂ := by
  intro l₁
  induction l₁ with
  | nil => intro l₂ h; exact absurd rfl h
  | cons x xs ih =>
    intro l₂ _ hl₂ hc₁ hc₂ heq
    cases l₂ with
    | nil => exact absurd rfl hl₂
    | cons y ys =>
      cases xs with
      | nil =>
        cases ys with
        | nil =>
          have e : x = y := heq
          rw [e]
        | cons y₂ yt =>
          exfalso
          have e₂ : joinSep [c] (y :: y₂ :: yt) = y ++ c :: joinSep [c] (y₂ :: yt) := by
            show y ++ [c] ++ joinSep [c] (y₂ :: yt) = _
            simp
          have heq' : x = y ++ c :: joinSep [c] (y₂ :: yt) := by
            rw [← e₂]; exact heq
          exact hc₁ x (by simp) (heq' ▸ List.mem_append_right y (List.mem_cons_self c _))
      | cons x₂ xt =>
        cases ys with
        | nil =>
          exfalso
          have e₁ : joinSep [c] (x :: x₂ :: xt) = x ++ c :: joinSep [c] (x₂ :: xt) := by
            show x ++ [c] ++ joinSep [c] (x₂ :: xt) = _
            simp
          have heq' : x ++ c :: joinSep [c] (x₂ :: xt) = y := by
            rw [← e₁]; exact heq
          exact hc₂ y (by simp) (heq' ▸ List.mem_append_right x (List.mem_cons_self c _))
        | cons y₂ yt =>
          have e₁ : joinSep [c] (x :: x₂ :: xt) = x ++ c :: joinSep [c] (x₂ :: xt) := by
            show x ++ [c] ++ joinSep [c] (x₂ :: xt) = _
            simp
          have e₂ : joinSep [c] (y :: y₂ :: yt) = y ++ c :: joinSep [c] (y₂ :: yt) := by
            show y ++ [c] ++ joinSep [c] (y₂ :: yt) = _
            simp
          rw [e₁, e₂] at heq
          obtain ⟨hxy, hrest⟩ := firstSep_eq c x y _ _ (hc₁ x (by simp)) (hc₂ y (by simp)) heq
          subst hxy
          rw [ih (y₂ :: yt) (by simp) (by simp)
            (fun s hs => hc₁ s (by simp [hs])) (fun s hs => hc₂ s (by simp [hs])) hrest]

/-- Inverting `childName`. -/
theorem childName_some (d e n : Str) (h : childName d e = some n) :
    e = joinP d n ∧ n ≠ [] ∧ '/' ∉ n := by
  unfold childName at h
  dsimp only at h
  set rest := if d = [] then e else e.drop (d.length + 1) with hrest
  by_cases hcond : e = joinP d rest ∧ rest ≠ [] ∧ '/' ∉ rest
  · rw [if_pos hcond] at h
    injection h with h'
    subst h'
    exact hcond
  · rw [if_neg hcond] at h
    exact Option.noConfusion h

/-- Membership in a `glob` result. -/
theorem mem_glob (fs : FS) (d : Str) (p : Str → Bool) (e : Str) :
    e ∈ glob fs d p ↔ e ∈ fs.dirs ++ fs.files ∧
      ∃ n, childName d e = some n ∧ p n = true := by
  unfold glob
  rw [List.mem_filter]
  constructor
  · rintro ⟨h1, h2⟩
    refine ⟨h1, ?_⟩
    cases hc : childName d e with
    | none => rw [hc] at h2; exact absurd h2 (by simp)
    | some n => rw [hc] at h2; exact ⟨n, rfl, h2⟩
  · rintro ⟨h1, n, hn, hp⟩
    refine ⟨h1, ?_⟩
    rw [hn]
    exact hp

/-- Shape of every discovered container path: the root itself, or the
root extended by a nonempty chain of slash-free container names. -/
theorem containers_shape (fs : FS) : ∀ (fuel : Nat) (base d : Str),
    d ∈ get_subfolders_containers_recursive fs fuel base →
    d = base ∨ ∃ chain, chain ≠ [] ∧
      (∀ x ∈ chain, x ≠ [] ∧ '/' ∉ x ∧ patContainer x = true) ∧
      d = joinP base (joinSep (str "/") chain) := by
  intro fuel
  induction fuel with
  | zero =>
    intro base d hd
    unfold get_subfolders_containers_recursive at hd
    rw [List.mem_singleton] at hd
    exact Or.inl hd
  | succ fuel ih =>
    intro base d hd
    unfold get_subfolders_containers_recursive at hd
    dsimp only at hd
    rw [List.mem_cons] at hd
    rcases hd with rfl | hd
    · exact Or.inl rfl
    · rw [List.mem_flatMap] at hd
      obtain ⟨subdir, hsub, hd⟩ := hd
      rw [List.mem_filter] at hsub
      obtain ⟨hsubg, _⟩ := hsub
      rw [mem_glob] at hsubg
      obtain ⟨_, n, hcn, hpat⟩ := hsubg
      obtain ⟨hsubeq, hnne, hnsl⟩ := childName_some _ _ _ hcn
      subst hsubeq
      rcases ih (joinP base n) d hd with rfl | ⟨chain, hchne, hch, rfl⟩
      · right
        refine ⟨[n], by simp, ?_, rfl⟩
        intro x hx
        rw [List.mem_singleton] at hx
        subst hx
        exact ⟨hnne, hnsl, hpat⟩
      · right
        refine ⟨n :: chain, by simp, ?_, ?_⟩
        · intro x hx
          rcases List.mem_cons.mp hx with rfl | hx
          · exact ⟨hnne, hnsl, hpat⟩
          · exact hch x hx
        · rw [joinP_assoc base n _ hnne]
          congr 1
          cases chain with
          | nil => exact absurd rfl hchne
          | cons y t =>
            show n ++ '/' :: joinSep (str "/") (y :: t)
              = n ++ str "/" ++ joinSep (str "/") (y :: t)
            simp [str]

/-- Shape of every discovered maildir path: the root extended by a
(possibly empty) chain of container names and then a non-hidden
slash-free child name. -/
theorem maildirs_shape (fs : FS) (base : Str) (containers : List Str)
    (hcont : ∀ c ∈ containers, c = base ∨ ∃ chain, chain ≠ [] ∧
      (∀ x ∈ chain, x ≠ [] ∧ '/' ∉ x ∧ patContainer x = true) ∧
      c = joinP base (joinSep (str "/") chain))
    (p : Str) (hp : p ∈ get_maildirs_from_subfoldercontainers fs containers) :
    ∃ (chain : List Str) (nm : Str),
      (∀ x ∈ chain, x ≠ [] ∧ '/' ∉ x ∧ patContainer x = true) ∧
      nm ≠ [] ∧ '/' ∉ nm ∧ patStar nm = true ∧
      p = joinP base (joinSep (str "/") (chain ++ [nm])) := by
  unfold get_maildirs_from_subfoldercontainers at hp
  rw [List.mem_flatMap] at hp
  obtain ⟨c, hcmem, hp⟩ := hp
  dsimp only at hp
  rw [List.mem_filter] at hp
  obtain ⟨hp, _⟩ := hp
  rw [List.mem_filter] at hp
  obtain ⟨hp, _⟩ := hp
  rw [List.mem_filter] at hp
  obtain ⟨hp, _⟩ := hp
  rw [mem_glob] at hp
  obtain ⟨_, nm, hcn, hstar⟩ := hp
  obtain ⟨hpeq, hnne, hnsl⟩ := childName_some _ _ _ hcn
  rcases hcont c hcmem with rfl | ⟨chain, hchne, hch, rfl⟩
  · exact ⟨[], nm, by simp, hnne, hnsl, hstar, by rw [hpeq]; rfl⟩
  · refine ⟨chain, nm, hch, hnne, hnsl, hstar, ?_⟩
    rw [hpeq]
    rw [joinP_assoc base _ _ (joinSep_ne_nil _ chain hchne (fun x hx => (hch x hx).1))]
    congr 1
    rw [joinSep_append (str "/") chain [nm] hchne (by simp)]
    show joinSep (str "/") chain ++ '/' :: nm
      = joinSep (str "/") chain ++ str "/" ++ joinSep (str "/") [nm]
    simp [str, joinSep]

/-- Every member of the sorted list is made from a path in the
discovered maildir-path list. -/
theorem mem_sortedMaildirs_discovered (args : Args) (fs : FS) (m : Maildir)
    (h : m ∈ sortedMaildirs args fs) :
    ∃ p, p ∈ get_maildirs_from_subfoldercontainers fs
        (get_subfolders_containers_recursive fs (fs.dirs.length + 1) args.folder) ∧
      m = Maildir.make args p := by
  unfold sortedMaildirs at h
  dsimp only at h
  have hmem := (List.perm_insertionSort maildirBefore _).mem_iff.mp h
  rw [List.mem_map] at hmem
  obtain ⟨p, hp, hm⟩ := hmem
  exact ⟨p, hp, hm.symm⟩

/-- `joinP` with a fixed base is injective. -/
theorem joinP_right_inj (a x y : Str) (h : joinP a x = joinP a y) : x = y := by
  unfold joinP at h
  by_cases ha : a = []
  · rw [if_pos ha, if_pos ha] at h
    exact h
  · rw [if_neg ha, if_neg ha] at h
    have h' := List.append_cancel_left h
    injection h'

/-- Amended C2: for a single-character hierarchy separator that occurs
in neither folder's logical segments, distinct original directories
always flatten to distinct paths (the spec's invariant, restricted to
the separator-free case its derivation silently assumes). -/
theorem c2_amended_distinct_paths (args : Args) (fs : FS) (c : Char)
    (hsep : args.hierarchy_separator = [c])
    (m₁ m₂ : Maildir)
    (h₁ : m₁ ∈ sortedMaildirs args fs) (h₂ : m₂ ∈ sortedMaildirs args fs)
    (hfree₁ : ∀ seg ∈ m₁.path_list, c ∉ seg)
    (hfree₂ : ∀ seg ∈ m₂.path_list, c ∉ seg)
    (hdir : m₁.directory ≠ m₂.directory) :
    m₁.get_folder_path ≠ m₂.get_folder_path := by
  intro hkey
  obtain ⟨p₁, hp₁, hm₁⟩ := mem_sortedMaildirs_discovered args fs m₁ h₁
  obtain ⟨p₂, hp₂, hm₂⟩ := mem_sortedMaildirs_discovered args fs m₂ h₂
  have hcont := fun cdir hc =>
    containers_shape fs (fs.dirs.length + 1) args.folder cdir hc
  obtain ⟨ch₁, nm₁, hch₁, hn₁, hns₁, hst₁, hpe₁⟩ :=
    maildirs_shape fs args.folder _ hcont p₁ hp₁
  obtain ⟨ch₂, nm₂, hch₂, hn₂, hns₂, hst₂, hpe₂⟩ :=
    maildirs_shape fs args.folder _ hcont p₂ hp₂
  have hsl₁ : ∀ x ∈ ch₁ ++ [nm₁], '/' ∉ x := by
    intro x hx
    rcases List.mem_append.mp hx with hx | hx
    · exact (hch₁ x hx).2.1
    · rw [List.mem_singleton] at hx
      subst hx
      exact hns₁
  have hsl₂ : ∀ x ∈ ch₂ ++ [nm₂], '/' ∉ x := by
    intro x hx
    rcases List.mem_append.mp hx with hx | hx
    · exact (hch₂ x hx).2.1
    · rw [List.mem_singleton] at hx
      subst hx
      exact hns₂
  have hpl₁ : m₁.path_list = (ch₁ ++ [nm₁]).map stripSegment := by
    rw [hm₁, hpe₁]
    exact make_path_list_of_shape args _ (by simp) hsl₁
  have hpl₂ : m₂.path_list = (ch₂ ++ [nm₂]).map stripSegment := by
    rw [hm₂, hpe₂]
    exact make_path_list_of_shape args _ (by simp) hsl₂
  have ha₁ : m₁.args = args := by rw [hm₁]; rfl
  have ha₂ : m₂.args = args := by rw [hm₂]; rfl
  unfold Maildir.get_folder_path at hkey
  rw [ha₁, ha₂] at hkey
  have hkey₁ := joinP_right_inj _ _ _ hkey
  have hkey₂ : joinSep args.hierarchy_separator m₁.path_list
      = joinSep args.hierarchy_separator m₂.path_list :=
    List.append_cancel_left hkey₁
  rw [hsep] at hkey₂
  have hplne₁ : m₁.path_list ≠ [] := by
    rw [hm₁]
    exact make_path_list_ne_nil _ _
  have hplne₂ : m₂.path_list ≠ [] := by
    rw [hm₂]
    exact make_path_list_ne_nil _ _
  have hpl := joinSep_single_char_inj c m₁.path_list m₂.path_list hplne₁ hplne₂
    hfree₁ hfree₂ hkey₂
  rw [hpl₁, hpl₂] at hpl
  rw [List.map_append, List.map_append] at hpl
  have hnm₁ : [nm₁].map stripSegment = [nm₁] := by
    simp [strip_non_hidden nm₁ hst₁]
  have hnm₂ : [nm₂].map stripSegment = [nm₂] := by
    simp [strip_non_hidden nm₂ hst₂]
  rw [hnm₁, hnm₂] at hpl
  obtain ⟨hchains, hnames⟩ := List.append_inj' hpl (by simp)
  have hcheq : ch₁ = ch₂ :=
    strip_chain_inj ch₁ ch₂ (fun x hx => (hch₁ x hx).2.2) (fun x hx => (hch₂ x hx).2.2)
      hchains
  have hnmeq : nm₁ = nm₂ := by
    injection hnames
  have hdir₁ : m₁.directory = p₁ := by rw [hm₁]; rfl
  have hdir₂ : m₂.directory = p₂ := by rw [hm₂]; rfl
  apply hdir
  rw [hdir₁, hdir₂, hpe₁, hpe₂, hcheq, hnmeq]

/-- Witness for the amended C2 on the demo tree with separator `.`:
the two discovered folders have dot-free segments and distinct
directories, hence distinct flattened paths. -/
theorem c2_amended_distinct_paths_witness :
    (Maildir.make demoArgsReal (str "/m/A")).get_folder_path ≠
      (Maildir.make demoArgsReal (str "/m/.A.directory/B")).get_folder_path :=
  c2_amended_distinct_paths demoArgsReal demoFs '.' (by decide)
    (Maildir.make demoArgsReal (str "/m/A"))
    (Maildir.make demoArgsReal (str "/m/.A.directory/B"))
    (by decide) (by decide) (by decide) (by decide) (by decide)

/-- `joinSep` of a list ending in a nonempty component is nonempty. -/
theorem joinSep_ne_nil_last (sep : Str) : ∀ (l : List Str) (x : Str), x ≠ [] →
    joinSep sep (l ++ [x]) ≠ [] := by
  intro l
  induction l with
  | nil => intro x hx; exact hx
  | cons y t ih =>
    intro x hx
    have e : (y :: t) ++ [x] = y :: (t ++ [x]) := rfl
    rw [e]
    cases hc : t ++ [x] with
    | nil => exact absurd hc (by simp)
    | cons z zs =>
      show y ++ sep ++ joinSep sep (z :: zs) ≠ []
      have hih := ih x hx
      rw [hc] at hih
      simp [hih]

/-- Claim C4: folders are processed in descending lexicographic order
of their flattened paths, so a folder F that is an ancestor of G in the
original KMail hierarchy (its logical segment list is a strict prefix
of G's, as in the spec scenario where `Projects` is an ancestor of
`Old`) is renamed strictly after G: wherever F and G sit in the sorted
processing list, G's position is strictly earlier. -/
theorem c4_ancestors_processed_after_descendants (args : Args) (fs : FS)
    (F G : Maildir)
    (hanc : F.path_list <+: G.path_list) (hne : F.path_list ≠ G.path_list) :
    ∀ i j (hi : i < (sortedMaildirs args fs).length)
        (hj : j < (sortedMaildirs args fs).length),
      (sortedMaildirs args fs)[i] = F → (sortedMaildirs args fs)[j] = G → j < i := by
  intro i j hi hj hiF hjG
  have hFmem : F ∈ sortedMaildirs args fs := hiF ▸ List.getElem_mem hi
  have hGmem : G ∈ sortedMaildirs args fs := hjG ▸ List.getElem_mem hj
  obtain ⟨pF, hpFd, hpF⟩ := mem_sortedMaildirs_discovered args fs F hFmem
  obtain ⟨pG, hpGd, hpG⟩ := mem_sortedMaildirs_discovered args fs G hGmem
  have hFargs : F.args = args := by rw [hpF]; rfl
  have hGargs : G.args = args := by rw [hpG]; rfl
  have hFne : F.path_list ≠ [] := by
    rw [hpF]
    exact make_path_list_ne_nil _ _
  obtain ⟨ext, hext⟩ := hanc
  have hextne : ext ≠ [] := by
    rintro rfl
    exact hne (by simpa using hext)
  have hcont := fun cdir hc =>
    containers_shape fs (fs.dirs.length + 1) args.folder cdir hc
  obtain ⟨ch, nm, hch, hnne, hnsl, hstar, hpe⟩ :=
    maildirs_shape fs args.folder _ hcont pG hpGd
  have hslG : ∀ x ∈ ch ++ [nm], '/' ∉ x := by
    intro x hx
    rcases List.mem_append.mp hx with hx | hx
    · exact (hch x hx).2.1
    · rw [List.mem_singleton] at hx
      subst hx
      exact hnsl
  have hplG : G.path_list = ch.map stripSegment ++ [nm] := by
    rw [hpG, hpe, make_path_list_of_shape args _ (by simp) hslG, List.map_append]
    simp [strip_non_hidden nm hstar]
  rcases List.eq_nil_or_concat ext with hnil | ⟨e', x, hx⟩
  · exact absurd hnil hextne
  · rw [List.concat_eq_append] at hx
    have hxnm : x = nm := by
      have h0 : (F.path_list ++ e') ++ [x] = ch.map stripSegment ++ [nm] := by
        rw [List.append_assoc, ← hx, hext, hplG]
      have h1 := (List.append_inj' h0 (by simp)).2
      simpa using h1
    have hsne : joinSep args.hierarchy_separator ext ≠ [] := by
      rw [hx, hxnm]
      exact joinSep_ne_nil_last _ e' nm hnne
    have hjoin : joinSep args.hierarchy_separator G.path_list
        = joinSep args.hierarchy_separator F.path_list ++ args.hierarchy_separator ++
            joinSep args.hierarchy_separator ext := by
      rw [← hext]
      exact joinSep_append _ _ _ hFne hextne
    have hkeyG : G.get_folder_path = F.get_folder_path ++
        (args.hierarchy_separator ++ joinSep args.hierarchy_separator ext) := by
      unfold Maildir.get_folder_path
      rw [hFargs, hGargs, hjoin, ← joinP_append_right]
      congr 1
      simp [List.append_assoc]
    have hs : args.hierarchy_separator ++ joinSep args.hierarchy_separator ext ≠ [] := by
      intro h0
      rcases List.append_eq_nil.mp h0 with ⟨_, h2⟩
      exact hsne h2
    have hlt : strLt F.get_folder_path G.get_folder_path = true := by
      rw [hkeyG]
      exact strLt_append _ _ hs
    have hFG : F ≠ G := fun h => hne (congrArg Maildir.path_list h)
    rcases Nat.lt_trichotomy j i with h | h | h
    · exact h
    · exact absurd (hiF.symm.trans (h ▸ hjG)) hFG
    · exfalso
      have hp : List.Pairwise maildirBefore (sortedMaildirs args fs) :=
        sortedMaildirs_sorted args fs
      have hbefore := (List.pairwise_iff_getElem.mp hp) i j hi hj h
      rw [hiF, hjG] at hbefore
      unfold maildirBefore at hbefore
      rw [hlt] at hbefore
      exact absurd hbefore (by simp)

/-- Witness for C4 on the demo tree: `A` (segments `[A]`) is the
logical ancestor of `B` (segments `[A, B]`), the sorted list is
`[B-folder, A-folder]`, and the order conclusion holds. -/
theorem c4_ancestors_processed_after_descendants_witness :
    (sortedMaildirs demoArgsReal demoFs
      = [Maildir.make demoArgsReal (str "/m/.A.directory/B"),
         Maildir.make demoArgsReal (str "/m/A")]) ∧
    (∀ i j (hi : i < (sortedMaildirs demoArgsReal demoFs).length)
        (hj : j < (sortedMaildirs demoArgsReal demoFs).length),
      (sortedMaildirs demoArgsReal demoFs)[i] = Maildir.make demoArgsReal (str "/m/A") →
      (sortedMaildirs demoArgsReal demoFs)[j]
          = Maildir.make demoArgsReal (str "/m/.A.directory/B") → j < i) :=
  ⟨by decide,
   c4_ancestors_processed_after_descendants demoArgsReal demoFs _ _
     ⟨[str "B"], by decide⟩ (by decide)⟩
